import Mathlib

/-!
Shallow embedding of the `encryptable` derive-macro crate (`src/crypt.rs`).

The crate is a procedural macro: given a struct annotated with
`#[encryptable(service = ..., digest = ...)]` and per-field
`#[encryptable(encrypt, decrypt)]` flags, it generates an `impl Crypt` with
`fn encrypt(&self) -> Self` and `fn decrypt(&self) -> Self`.

The embedding has two layers:

* a **generation layer** translating `is_option`, `is_vector`,
  `encrypt_field`, `decrypt_field` and `encryptable_derive_macro2`: each
  generated per-field expression (the body of a `quote!` block) is
  represented by a `FieldExpr` constructor;
* a **runtime layer** (`evalExpr`, `runPlan`, `runOp`) giving the semantics
  of the generated expressions over a record valuation.  The transformation
  service's fallible `encrypt`/`decrypt` are `String → Option String`
  (`none` = `Err`); a Rust `.unwrap()` panic is modelled by the outer
  `Option` of the evaluator being `none`.

Rust `String`/`str` primitives used by the source (`is_empty`, `ends_with`,
`replace(pat, "")`) are modelled over `String.data` (`List Char`) so that
everything is executable and decidable.
-/

namespace Encryptable

/-- Rust `str::is_empty` on a string value. -/
def strIsEmpty (s : String) : Bool :=
  s.data.isEmpty

/-- Rust `str::ends_with` with a string pattern. -/
def strEndsWith (s pat : String) : Bool :=
  pat.data.isSuffixOf s.data

/-- Auxiliary scan for `String::replace(pat, "")`: removes every leftmost,
non-overlapping occurrence of `pat` (as `replace` does when the replacement
is the empty string).  Structural recursion on a fuel bound (the scan
consumes at least one character per step, so `l.length` fuel suffices). -/
def removePat (pat : List Char) : Nat → List Char → List Char
  | _, [] => []
  | 0, l => l
  | fuel + 1, c :: rest =>
    if pat.isPrefixOf (c :: rest) then
      removePat pat fuel (rest.drop (pat.length - 1))
    else
      c :: removePat pat fuel rest

/-- Rust `String::replace(pat, "")` (empty replacement), as used for the
digest parent name `field_name.replace("_digest", "")`. -/
def replaceRemove (s pat : String) : String :=
  ⟨removePat pat.data s.data.length s.data⟩

/-- A syn `Type`, restricted to what the source inspects: a path type is its
list of segment identifiers; everything else is opaque. -/
inductive RsType where
  | path (segments : List String)
  | other
deriving DecidableEq

/-- A syn `Field`: `ident` is `none` for a tuple-struct (unnamed) field. -/
structure Field where
  ident : Option String
  ty : RsType
deriving DecidableEq

/-- The per-field `#[encryptable(...)]` flags (`EncryptableFieldAttributes`
in the source, both defaulting to `false`). -/
structure EncryptableFieldAttributes where
  encrypt : Bool
  decrypt : Bool
deriving DecidableEq

/-- One entry of the field → attributes association
(`EncryptableFieldAttributesDictionary`).  A list of these is one concrete
iteration order of the `HashMap`. -/
structure FieldInfo where
  field : Field
  attrs : EncryptableFieldAttributes
deriving DecidableEq

/-- `is_option` from the source: `false` for non-path types; for a path type
it compares the FIRST path segment's identifier with `Option`
(`segments.iter().next().unwrap()`), panicking (`none`) on an empty path. -/
def is_option (ty : RsType) : Option Bool :=
  match ty with
  | .path [] => none
  | .path (s :: _) => some (s == "Option")
  | .other => some false

/-- `is_vector` from the source: same shape as `is_option` with `Vec`. -/
def is_vector (ty : RsType) : Option Bool :=
  match ty with
  | .path [] => none
  | .path (s :: _) => some (s == "Vec")
  | .other => some false

/-- The three structural shapes a field's expression can take. -/
inductive Shape where
  | scalar
  | optional
  | sequence
deriving DecidableEq

/-- The shape decision shared by `encrypt_field` and `decrypt_field`:
`if is_option(ty) { ... } else if is_vector(ty) { ... } else { ... }`. -/
def fieldShape (ty : RsType) : Option Shape :=
  match is_option ty with
  | none => none
  | some true => some .optional
  | some false =>
    match is_vector ty with
    | none => none
    | some true => some .sequence
    | some false => some .scalar

/-- Which service capability a generated expression calls. -/
inductive Op where
  | enc
  | dec
deriving DecidableEq

/-- The body of one generated per-field expression (one `quote!` block):

* `copy i`          — `#i: self.#i.to_owned()`;
* `serviceScalar`   — `#i: if self.#i.is_empty() { self.#i.to_owned() } else { #service.op(&self.#i).unwrap() }`;
* `serviceOpt`      — the `if let Some(value) = &self.#i` block with the inner emptiness check;
* `serviceSeq`      — `#i: if self.#i.is_empty() { self.#i.to_owned() } else { self.#i.iter().map(|v| #service.op(v).unwrap()).collect() }`;
* `digestExpr i p`  — `#i: if self.#p.is_empty() { self.#i.to_owned() } else { #func(&self.#p) }`. -/
inductive FieldExpr where
  | copy (ident : String)
  | serviceScalar (op : Op) (ident : String)
  | serviceOpt (op : Op) (ident : String)
  | serviceSeq (op : Op) (ident : String)
  | digestExpr (ident parent : String)
deriving DecidableEq

/-- The field identifier a generated expression populates. -/
def FieldExpr.ident : FieldExpr → String
  | .copy i => i
  | .serviceScalar _ i => i
  | .serviceOpt _ i => i
  | .serviceSeq _ i => i
  | .digestExpr i _ => i

/-- `encrypt_field` from the source: unwraps the field identifier (panic =
`none` for an unnamed field), then branches on the field's type shape. -/
def encrypt_field (field : Field) : Option FieldExpr :=
  match field.ident with
  | none => none
  | some ident =>
    match fieldShape field.ty with
    | none => none
    | some .optional => some (.serviceOpt .enc ident)
    | some .sequence => some (.serviceSeq .enc ident)
    | some .scalar => some (.serviceScalar .enc ident)

/-- `decrypt_field` from the source: identical branching with the service's
`decrypt` capability. -/
def decrypt_field (field : Field) : Option FieldExpr :=
  match field.ident with
  | none => none
  | some ident =>
    match fieldShape field.ty with
    | none => none
    | some .optional => some (.serviceOpt .dec ident)
    | some .sequence => some (.serviceSeq .dec ident)
    | some .scalar => some (.serviceScalar .dec ident)

/-- `Ident::new` for the digest parent name: `proc_macro2` panics on an
empty identifier string (`none`). -/
def mkIdent (s : String) : Option String :=
  if strIsEmpty s then none else some s

/-- The encode arm of the `field_attributes.iter().map(...)` closure in
`encryptable_derive_macro2`: the identifier is unwrapped first, then

* `encrypt` flag set → `encrypt_field`;
* else, name ends with `"digest"` and a digest function is configured →
  the digest expression with parent `field_name.replace("_digest", "")`;
* else → plain copy-through. -/
def encode_field_expr (hasDigest : Bool) (fi : FieldInfo) : Option FieldExpr :=
  match fi.field.ident with
  | none => none
  | some ident =>
    if fi.attrs.encrypt then
      encrypt_field fi.field
    else if strEndsWith ident "digest" && hasDigest then
      match mkIdent (replaceRemove ident "_digest") with
      | none => none
      | some parent => some (.digestExpr ident parent)
    else
      some (.copy ident)

/-- The decode arm of the second `field_attributes.iter().map(...)` closure:
the identifier is unwrapped first, then the `decrypt` flag selects
`decrypt_field`, otherwise copy-through. -/
def decode_field_expr (fi : FieldInfo) : Option FieldExpr :=
  match fi.field.ident with
  | none => none
  | some ident =>
    if fi.attrs.decrypt then
      decrypt_field fi.field
    else
      some (.copy ident)

/-- Sequencing of fallible per-element computations: `none` at the first
failing element, as a chain of Rust `.unwrap()` panics (and as
`collect::<Vec<_>>` over `map` with `unwrap`). -/
def optionMap (f : α → Option β) : List α → Option (List β)
  | [] => some []
  | a :: l => (f a).bind (fun b => (optionMap f l).map (fun bs => b :: bs))

/-- `encryptable_derive_macro2`, after syn parsing and deluxe attribute
extraction (whose own error paths precede everything modelled here):
`hasDigest` is `digest.is_some()`, `fields` is the iteration order of the
`HashMap`-backed `field_attributes` (the same order for both `iter()`
calls), and the result is the pair (encode plan, decode plan); the encode
expressions are forced first, as `quote!` consumes that iterator first. -/
def encryptable_derive_macro2 (hasDigest : Bool) (fields : List FieldInfo) :
    Option (List FieldExpr × List FieldExpr) :=
  match optionMap (encode_field_expr hasDigest) fields with
  | none => none
  | some encs =>
    match optionMap decode_field_expr fields with
    | none => none
    | some decs => some (encs, decs)

/-! ### Runtime layer: semantics of the generated expressions -/

/-- A runtime field value: a `String`, an `Option<String>` or a
`Vec<String>`. -/
inductive FieldValue where
  | scalar (s : String)
  | opt (o : Option String)
  | seq (l : List String)
deriving DecidableEq

/-- The transformation service: fallible `encrypt`/`decrypt`
(`none` = `Err`). -/
structure Service where
  encryptS : String → Option String
  decryptS : String → Option String

/-- The capability an expression's `Op` selects. -/
def Service.apply (svc : Service) : Op → String → Option String
  | .enc => svc.encryptS
  | .dec => svc.decryptS

/-- View a field value as the scalar the generated scalar/digest code
expects (any other runtime shape would be a type error in the generated
Rust, which cannot evaluate). -/
def FieldValue.asScalar : FieldValue → Option String
  | .scalar s => some s
  | _ => none

/-- View a field value as an `Option<String>`. -/
def FieldValue.asOpt : FieldValue → Option (Option String)
  | .opt o => some o
  | _ => none

/-- View a field value as a `Vec<String>`. -/
def FieldValue.asSeq : FieldValue → Option (List String)
  | .seq l => some l
  | _ => none

/-- The generated scalar body:
`if v.is_empty() { v.to_owned() } else { service.op(&v).unwrap() }`. -/
def applyScalar (f : String → Option String) (s : String) : Option String :=
  if strIsEmpty s then some s else f s

/-- The generated optional body: `None` is preserved; a present value gets
the inner emptiness check before the service call. -/
def applyOpt (f : String → Option String) : Option String → Option (Option String)
  | none => some none
  | some v => if strIsEmpty v then some (some v) else (f v).map some

/-- The generated sequence body: an empty vector is cloned; otherwise every
element is passed to the service (no per-element emptiness check). -/
def applySeq (f : String → Option String) (l : List String) : Option (List String) :=
  if l.isEmpty then some l else optionMap f l

/-- Evaluate one generated per-field expression against the receiver
record `self`.  `none` models a `.unwrap()` panic on a service error. -/
def evalExpr (svc : Service) (digestFn : String → String)
    (self : String → FieldValue) : FieldExpr → Option FieldValue
  | .copy i => some (self i)
  | .serviceScalar op i =>
    match (self i).asScalar with
    | none => none
    | some s =>
      match applyScalar (svc.apply op) s with
      | none => none
      | some r => some (.scalar r)
  | .serviceOpt op i =>
    match (self i).asOpt with
    | none => none
    | some o =>
      match applyOpt (svc.apply op) o with
      | none => none
      | some r => some (.opt r)
  | .serviceSeq op i =>
    match (self i).asSeq with
    | none => none
    | some l =>
      match applySeq (svc.apply op) l with
      | none => none
      | some r => some (.seq r)
  | .digestExpr i parent =>
    match (self parent).asScalar with
    | none => none
    | some p => some (if strIsEmpty p then self i else .scalar (digestFn p))

/-- Evaluate every expression of a plan in order against `self`, producing
the (field name, new value) pairs of the generated `Self { ... }` literal;
`none` at the first panicking expression. -/
def runPlan (svc : Service) (digestFn : String → String)
    (self : String → FieldValue) (plan : List FieldExpr) :
    Option (List (String × FieldValue)) :=
  optionMap (fun e => (evalExpr svc digestFn self e).map (fun v => (FieldExpr.ident e, v))) plan

/-- The record built from the computed field pairs (names not populated by
the plan keep their old value; in generated code the plan covers every
field). -/
def updFields (self : String → FieldValue) (l : List (String × FieldValue)) :
    String → FieldValue :=
  fun i => ((l.lookup i).getD (self i))

/-- Run one generated operation body (`Self { #(#fields),* }`). -/
def runOp (svc : Service) (digestFn : String → String)
    (self : String → FieldValue) (plan : List FieldExpr) :
    Option (String → FieldValue) :=
  match runPlan svc digestFn self plan with
  | none => none
  | some l => some (updFields self l)

/-- The generated `fn encrypt(&self) -> Self`, composed with generation. -/
def cryptEncrypt (svc : Service) (digestFn : String → String) (hasDigest : Bool)
    (fields : List FieldInfo) (self : String → FieldValue) :
    Option (String → FieldValue) :=
  match encryptable_derive_macro2 hasDigest fields with
  | none => none
  | some (encs, _) => runOp svc digestFn self encs

/-- The generated `fn decrypt(&self) -> Self`, composed with generation. -/
def cryptDecrypt (svc : Service) (digestFn : String → String) (hasDigest : Bool)
    (fields : List FieldInfo) (self : String → FieldValue) :
    Option (String → FieldValue) :=
  match encryptable_derive_macro2 hasDigest fields with
  | none => none
  | some (_, decs) => runOp svc digestFn self decs

/-! ### Spec-side hypothesis predicates -/

/-- Observational agreement of two services away from the empty string:
both capabilities coincide on every non-empty argument.  An operation that
never passes an empty value to the service cannot distinguish two such
services. -/
def agreeOnNonEmpty (svc svc' : Service) : Prop :=
  ∀ op s, strIsEmpty s = false → svc.apply op s = svc'.apply op s

/-- The round-trip hypothesis exactly as the spec words it: the service's
decode is a left inverse of its encode on non-empty strings. -/
def leftInverseOnNonEmpty (svc : Service) : Prop :=
  ∀ v, strIsEmpty v = false → (svc.encryptS v).bind svc.decryptS = some v

/-- The strengthened round-trip hypothesis: on non-empty plaintext the
service encrypts to some non-empty ciphertext that decrypts back. -/
def encodeInvertibleOnNonEmpty (svc : Service) : Prop :=
  ∀ v, strIsEmpty v = false →
    ∃ w, svc.encryptS v = some w ∧ strIsEmpty w = false ∧ svc.decryptS w = some v

/-! ### Concrete services, fields and records used in witnesses and
counterexamples -/

/-- The identity service: both capabilities succeed and return the input. -/
def svcId : Service := ⟨fun s => some s, fun s => some s⟩

/-- A service differing from `svcId` only when encrypting the empty
string. -/
def svcEmptyDiff : Service :=
  ⟨fun s => if strIsEmpty s then some "X" else some s, fun s => some s⟩

/-- A service that encrypts the plaintext `"a"` to the EMPTY ciphertext and
decrypts it back; every other string is fixed by both capabilities.  Its
decode is a left inverse of its encode on non-empty strings. -/
def svcCollapse : Service :=
  ⟨fun v => some (if v = "a" then "" else v),
   fun w => some (if w = "" then "a" else w)⟩

/-- A service whose decrypt constantly returns `"X"`. -/
def svcConstDec : Service := ⟨fun s => some s, fun _ => some "X"⟩

/-- A service whose calls always fail. -/
def svcFail : Service := ⟨fun _ => none, fun _ => none⟩

/-- A digest function with constant value `"D"` (distinguishable from every
input used below). -/
def dgD : String → String := fun _ => "D"

/-- `name: String` flagged `encrypt, decrypt` (as in the repository's
tests). -/
def fName : FieldInfo := ⟨⟨some "name", .path ["String"]⟩, ⟨true, true⟩⟩

/-- `name: String` with neither flag. -/
def fNamePlain : FieldInfo := ⟨⟨some "name", .path ["String"]⟩, ⟨false, false⟩⟩

/-- `name_digest: String` with neither flag (the digest companion of the
tests). -/
def fNameDigest : FieldInfo := ⟨⟨some "name_digest", .path ["String"]⟩, ⟨false, false⟩⟩

/-- `name_digest: String` carrying a `decrypt` flag. -/
def fNameDigestDec : FieldInfo := ⟨⟨some "name_digest", .path ["String"]⟩, ⟨false, true⟩⟩

/-- `a_digest: String` with neither flag. -/
def fADigest : FieldInfo := ⟨⟨some "a_digest", .path ["String"]⟩, ⟨false, false⟩⟩

/-- A field named plain `digest` — NOT of the form `<base>_digest` — with
neither flag. -/
def fDigestBare : FieldInfo := ⟨⟨some "digest", .path ["String"]⟩, ⟨false, false⟩⟩

/-- `sessions: Vec<String>` flagged `encrypt, decrypt`. -/
def fSessions : FieldInfo := ⟨⟨some "sessions", .path ["Vec"]⟩, ⟨true, true⟩⟩

/-- `note: String` with neither flag, name not ending in `digest`. -/
def fNote : FieldInfo := ⟨⟨some "note", .path ["String"]⟩, ⟨false, false⟩⟩

/-- Plain unflagged field `a`. -/
def fA : FieldInfo := ⟨⟨some "a", .path ["String"]⟩, ⟨false, false⟩⟩

/-- Plain unflagged field `b`. -/
def fB : FieldInfo := ⟨⟨some "b", .path ["String"]⟩, ⟨false, false⟩⟩

/-- A tuple-struct (unnamed) field. -/
def fUnnamed : FieldInfo := ⟨⟨none, .path ["String"]⟩, ⟨false, false⟩⟩

/-- A record whose every field reads as the scalar `"a"`. -/
def selfA : String → FieldValue := fun _ => .scalar "a"

/-- A record whose every field reads as the empty scalar. -/
def selfEmpty : String → FieldValue := fun _ => .scalar ""

/-- A record whose every field reads as the scalar `"y"`. -/
def selfY : String → FieldValue := fun _ => .scalar "y"

/-- A record whose every field reads as the scalar `"x"`. -/
def selfX : String → FieldValue := fun _ => .scalar "x"

/-- A record whose sequence fields read `["", "a"]`: a NON-empty vector
containing an empty element. -/
def selfSeq : String → FieldValue := fun _ => .seq ["", "a"]

/-- A record whose optional fields are absent. -/
def selfOptNone : String → FieldValue := fun _ => .opt none

/-- The tests' payload: `name = "Jake"`, every other field `"x"`. -/
def selfJake : String → FieldValue :=
  fun i => if i = "name" then .scalar "Jake" else .scalar "x"

/-- The encode output of `[fName]` over `selfA` under `svcId`. -/
def midA : String → FieldValue := updFields selfA [("name", .scalar "a")]

/-- The decode output following `midA`. -/
def outA : String → FieldValue := updFields midA [("name", .scalar "a")]

/-- The encode output of `[fNote]` over `selfA` (a pure copy). -/
def midNote : String → FieldValue := updFields selfA [("note", .scalar "a")]

/-! ### General lemmas about the fallible sequencing -/

theorem optionMap_nil {α β : Type} (f : α → Option β) : optionMap f [] = some [] := rfl

theorem optionMap_cons {α β : Type} (f : α → Option β) (a : α) (l : List α) :
    optionMap f (a :: l) = (f a).bind (fun b => (optionMap f l).map (fun bs => b :: bs)) := rfl

theorem optionMap_cons_eq_some {α β : Type} {f : α → Option β} {a : α} {l : List α}
    {r : List β} :
    optionMap f (a :: l) = some r ↔
      ∃ b bs, f a = some b ∧ optionMap f l = some bs ∧ r = b :: bs := by
  rw [optionMap_cons]
  constructor
  · intro h
    rcases Option.bind_eq_some.mp h with ⟨b, hb, hmap⟩
    rcases Option.map_eq_some'.mp hmap with ⟨bs, hbs, hr⟩
    exact ⟨b, bs, hb, hbs, hr.symm⟩
  · rintro ⟨b, bs, hb, hbs, rfl⟩
    rw [hb, hbs]
    rfl

theorem optionMap_none_of_mem {α β : Type} {f : α → Option β} {l : List α} {a : α}
    (ha : a ∈ l) (hfa : f a = none) : optionMap f l = none := by
  induction l with
  | nil => cases ha
  | cons b l ih =>
    rcases List.mem_cons.mp ha with rfl | ha'
    · rw [optionMap_cons, hfa]
      rfl
    · rw [optionMap_cons, ih ha']
      cases f b <;> rfl

theorem optionMap_some_of_mem {α β : Type} {f : α → Option β} {l : List α}
    {r : List β} (h : optionMap f l = some r) {a : α} (ha : a ∈ l) :
    ∃ b, f a = some b ∧ b ∈ r := by
  induction l generalizing r with
  | nil => cases ha
  | cons c l ih =>
    rcases optionMap_cons_eq_some.mp h with ⟨b, bs, hb, hbs, rfl⟩
    rcases List.mem_cons.mp ha with rfl | ha'
    · exact ⟨b, hb, List.mem_cons_self _ _⟩
    · rcases ih hbs ha' with ⟨b', hb', hmem⟩
      exact ⟨b', hb', List.mem_cons_of_mem _ hmem⟩

theorem optionMap_ne_none {α β : Type} {f : α → Option β} :
    ∀ {l : List α}, (∀ a ∈ l, f a ≠ none) → optionMap f l ≠ none := by
  intro l
  induction l with
  | nil =>
    intro _ h
    cases h
  | cons a l ih =>
    intro hc h
    rcases hfa : f a with _ | b
    · exact hc a (List.mem_cons_self _ _) hfa
    · rcases hml : optionMap f l with _ | bs
      · exact ih (fun x hx => hc x (List.mem_cons_of_mem _ hx)) hml
      · rw [optionMap_cons, hfa, hml] at h
        cases h

theorem optionMap_eq_none_iff {α β : Type} {f : α → Option β} {l : List α} :
    optionMap f l = none ↔ ∃ a ∈ l, f a = none := by
  constructor
  · intro h
    by_contra hc
    push_neg at hc
    exact optionMap_ne_none hc h
  · rintro ⟨a, ha, hfa⟩
    exact optionMap_none_of_mem ha hfa

theorem optionMap_length {α β : Type} {f : α → Option β} :
    ∀ {l : List α} {r : List β}, optionMap f l = some r → r.length = l.length := by
  intro l
  induction l with
  | nil =>
    intro r h
    cases h
    rfl
  | cons a l ih =>
    intro r h
    rcases optionMap_cons_eq_some.mp h with ⟨b, bs, _, hbs, rfl⟩
    simp [ih hbs]

theorem optionMap_get? {α β : Type} {f : α → Option β} :
    ∀ {l : List α} {r : List β}, optionMap f l = some r →
      ∀ k a, l.get? k = some a → ∃ b, f a = some b ∧ r.get? k = some b := by
  intro l
  induction l with
  | nil =>
    intro r _ k a ha
    cases k <;> cases ha
  | cons c l ih =>
    intro r h k a ha
    rcases optionMap_cons_eq_some.mp h with ⟨b, bs, hb, hbs, rfl⟩
    cases k with
    | zero =>
      cases ha
      exact ⟨b, hb, rfl⟩
    | succ k => exact ih hbs k a ha

theorem optionMap_eq_map {α β : Type} {f : α → Option β} (d : β) :
    ∀ {l : List α} {r : List β}, optionMap f l = some r →
      r = l.map (fun a => (f a).getD d) := by
  intro l
  induction l with
  | nil =>
    intro r h
    cases h
    rfl
  | cons a l ih =>
    intro r h
    rcases optionMap_cons_eq_some.mp h with ⟨b, bs, hb, hbs, rfl⟩
    simp [ih hbs, hb]

theorem optionMap_map_rel {α β γ : Type} {f : α → Option β} {q : α → γ} {p : β → γ}
    (hqp : ∀ a b, f a = some b → q a = p b) :
    ∀ {l : List α} {r : List β}, optionMap f l = some r → l.map q = r.map p := by
  intro l
  induction l with
  | nil =>
    intro r h
    cases h
    rfl
  | cons a l ih =>
    intro r h
    rcases optionMap_cons_eq_some.mp h with ⟨b, bs, hb, hbs, rfl⟩
    simp [ih hbs, hqp a b hb]

/-! ### Lemmas about the generated operation bodies -/

theorem runPlan_lookup {svc : Service} {dg : String → String}
    {self : String → FieldValue} :
    ∀ {plan : List FieldExpr} {l : List (String × FieldValue)} {e : FieldExpr},
      (plan.map FieldExpr.ident).Nodup → e ∈ plan →
      runPlan svc dg self plan = some l →
      l.lookup (FieldExpr.ident e) = evalExpr svc dg self e := by
  intro plan
  induction plan with
  | nil =>
    intro l e _ he
    cases he
  | cons e' rest ih =>
    intro l e hnd he hr
    rcases optionMap_cons_eq_some.mp hr with ⟨b, bs, hb, hbs, rfl⟩
    rcases Option.map_eq_some'.mp hb with ⟨v', hv', rfl⟩
    rw [List.map_cons, List.nodup_cons] at hnd
    rcases List.mem_cons.mp he with rfl | he'
    · rw [List.lookup, beq_self_eq_true]
      exact hv'.symm
    · have hne : (FieldExpr.ident e == FieldExpr.ident e') = false := by
        rcases hbeq : FieldExpr.ident e == FieldExpr.ident e' with _ | _
        · rfl
        · exact absurd (beq_iff_eq.mp hbeq ▸ List.mem_map_of_mem FieldExpr.ident he')
            hnd.1
      rw [List.lookup, hne]
      exact ih hnd.2 he' hbs

theorem runOp_eq_some {svc : Service} {dg : String → String}
    {self : String → FieldValue} {plan : List FieldExpr}
    {out : String → FieldValue} (h : runOp svc dg self plan = some out) :
    ∃ l, runPlan svc dg self plan = some l ∧ out = updFields self l := by
  unfold runOp at h
  rcases hl : runPlan svc dg self plan with _ | l <;> rw [hl] at h
  · cases h
  · exact ⟨l, rfl, (Option.some_inj.mp h).symm⟩

/-- Central lemma: when a generated operation succeeds, the value of each
populated field is the evaluation of that field's expression against the
input record. -/
theorem runOp_field {svc : Service} {dg : String → String}
    {self : String → FieldValue} {plan : List FieldExpr}
    {out : String → FieldValue} {e : FieldExpr}
    (hnd : (plan.map FieldExpr.ident).Nodup) (he : e ∈ plan)
    (hout : runOp svc dg self plan = some out) :
    evalExpr svc dg self e = some (out (FieldExpr.ident e)) := by
  rcases runOp_eq_some hout with ⟨l, hl, rfl⟩
  have hlk := runPlan_lookup hnd he hl
  rcases optionMap_some_of_mem hl he with ⟨b, hb, _⟩
  rcases Option.map_eq_some'.mp hb with ⟨v, hv, rfl⟩
  rw [hv]
  unfold updFields
  rw [hlk, hv]
  rfl

theorem derive_components {h : Bool} {fs : List FieldInfo}
    {encs decs : List FieldExpr}
    (hd : encryptable_derive_macro2 h fs = some (encs, decs)) :
    optionMap (encode_field_expr h) fs = some encs ∧
      optionMap decode_field_expr fs = some decs := by
  unfold encryptable_derive_macro2 at hd
  rcases he : optionMap (encode_field_expr h) fs with _ | encs' <;> rw [he] at hd
  · cases hd
  · rcases hdc : optionMap decode_field_expr fs with _ | decs' <;> rw [hdc] at hd
    · cases hd
    · rcases Option.some_inj.mp hd with ⟨rfl, rfl⟩
      exact ⟨rfl, rfl⟩

theorem derive_eq_none_iff {h : Bool} {fs : List FieldInfo} :
    encryptable_derive_macro2 h fs = none ↔
      optionMap (encode_field_expr h) fs = none ∨
        optionMap decode_field_expr fs = none := by
  unfold encryptable_derive_macro2
  rcases he : optionMap (encode_field_expr h) fs with _ | encs
  · simp
  · rcases hdc : optionMap decode_field_expr fs with _ | decs <;> simp

theorem encode_field_expr_ident {h : Bool} {fi : FieldInfo} {e : FieldExpr}
    (hfe : encode_field_expr h fi = some e) :
    fi.field.ident = some (FieldExpr.ident e) := by
  unfold encode_field_expr at hfe
  rcases hid : fi.field.ident with _ | n <;> rw [hid] at hfe
  · cases hfe
  · rcases henc : fi.attrs.encrypt with _ | _ <;> rw [henc] at hfe <;>
      simp only [Bool.false_eq_true, if_false, if_true] at hfe
    · rcases hcond : strEndsWith n "digest" && h with _ | _ <;> rw [hcond] at hfe <;>
        simp only [Bool.false_eq_true, if_false, if_true] at hfe
      · cases hfe
        rfl
      · rcases hmk : mkIdent (replaceRemove n "_digest") with _ | p <;> rw [hmk] at hfe
        · cases hfe
        · cases hfe
          rfl
    · unfold encrypt_field at hfe
      rw [hid] at hfe
      rcases hsh : fieldShape fi.field.ty with _ | sh <;> rw [hsh] at hfe
      · cases hfe
      · cases sh <;> cases hfe <;> rfl

theorem decode_field_expr_ident {fi : FieldInfo} {e : FieldExpr}
    (hfe : decode_field_expr fi = some e) :
    fi.field.ident = some (FieldExpr.ident e) := by
  unfold decode_field_expr at hfe
  rcases hid : fi.field.ident with _ | n <;> rw [hid] at hfe
  · cases hfe
  · rcases hdec : fi.attrs.decrypt with _ | _ <;> rw [hdec] at hfe <;>
      simp only [Bool.false_eq_true, if_false, if_true] at hfe
    · cases hfe
      rfl
    · unfold decrypt_field at hfe
      rw [hid] at hfe
      rcases hsh : fieldShape fi.field.ty with _ | sh <;> rw [hsh] at hfe
      · cases hfe
      · cases sh <;> cases hfe <;> rfl

theorem plan_idents_nodup {f : FieldInfo → Option FieldExpr} {fs : List FieldInfo}
    {r : List FieldExpr}
    (hident : ∀ a b, f a = some b → a.field.ident = some (FieldExpr.ident b))
    (hmap : optionMap f fs = some r)
    (hnd : (fs.map fun x => x.field.ident).Nodup) :
    (r.map FieldExpr.ident).Nodup := by
  have hmaps := optionMap_map_rel (q := fun x => x.field.ident)
    (p := fun e => some (FieldExpr.ident e)) hident hmap
  rw [hmaps] at hnd
  have : r.map (fun e => some (FieldExpr.ident e)) = (r.map FieldExpr.ident).map some := by
    rw [List.map_map]
    rfl
  rw [this] at hnd
  exact hnd.of_map some

/-- When a generated `encrypt` succeeds on a record with distinct field
names, each field's output value is the evaluation of that field's encode
expression. -/
theorem cryptEncrypt_field {svc : Service} {dg : String → String} {h : Bool}
    {fs : List FieldInfo} {self out : String → FieldValue}
    {fi : FieldInfo} {e : FieldExpr}
    (hm : cryptEncrypt svc dg h fs self = some out)
    (hnd : (fs.map fun x => x.field.ident).Nodup)
    (hmem : fi ∈ fs) (hfe : encode_field_expr h fi = some e) :
    evalExpr svc dg self e = some (out (FieldExpr.ident e)) := by
  unfold cryptEncrypt at hm
  rcases hd : encryptable_derive_macro2 h fs with _ | ⟨encs, decs⟩ <;> rw [hd] at hm
  · cases hm
  · rcases derive_components hd with ⟨he1, _⟩
    rcases optionMap_some_of_mem he1 hmem with ⟨e', hfe', hmem'⟩
    rw [hfe] at hfe'
    cases hfe'
    exact runOp_field (plan_idents_nodup (fun a b => encode_field_expr_ident) he1 hnd)
      hmem' hm

/-- Decode counterpart of `cryptEncrypt_field`. -/
theorem cryptDecrypt_field {svc : Service} {dg : String → String} {h : Bool}
    {fs : List FieldInfo} {self out : String → FieldValue}
    {fi : FieldInfo} {e : FieldExpr}
    (hm : cryptDecrypt svc dg h fs self = some out)
    (hnd : (fs.map fun x => x.field.ident).Nodup)
    (hmem : fi ∈ fs) (hfe : decode_field_expr fi = some e) :
    evalExpr svc dg self e = some (out (FieldExpr.ident e)) := by
  unfold cryptDecrypt at hm
  rcases hd : encryptable_derive_macro2 h fs with _ | ⟨encs, decs⟩ <;> rw [hd] at hm
  · cases hm
  · rcases derive_components hd with ⟨_, he2⟩
    rcases optionMap_some_of_mem he2 hmem with ⟨e', hfe', hmem'⟩
    rw [hfe] at hfe'
    cases hfe'
    exact runOp_field (plan_idents_nodup (fun a b => decode_field_expr_ident) he2 hnd)
      hmem' hm

theorem encode_field_expr_copy {h : Bool} {fi : FieldInfo} {n : String}
    (hid : fi.field.ident = some n) (henc : fi.attrs.encrypt = false)
    (hng : (strEndsWith n "digest" && h) = false) :
    encode_field_expr h fi = some (FieldExpr.copy n) := by
  simp [encode_field_expr, hid, henc, hng]

theorem encode_field_expr_flagged {h : Bool} {fi : FieldInfo} {n : String}
    (hid : fi.field.ident = some n) (henc : fi.attrs.encrypt = true)
    (hsh : fieldShape fi.field.ty = some Shape.scalar) :
    encode_field_expr h fi = some (FieldExpr.serviceScalar Op.enc n) := by
  simp [encode_field_expr, hid, henc, encrypt_field, hsh]

theorem decode_field_expr_copy {fi : FieldInfo} {n : String}
    (hid : fi.field.ident = some n) (hdec : fi.attrs.decrypt = false) :
    decode_field_expr fi = some (FieldExpr.copy n) := by
  simp [decode_field_expr, hid, hdec]

theorem decode_field_expr_flagged {fi : FieldInfo} {n : String}
    (hid : fi.field.ident = some n) (hdec : fi.attrs.decrypt = true)
    (hsh : fieldShape fi.field.ty = some Shape.scalar) :
    decode_field_expr fi = some (FieldExpr.serviceScalar Op.dec n) := by
  simp [decode_field_expr, hid, hdec, decrypt_field, hsh]

/-! ### Claim C8 -/

/-- Claim C8, counterexample: a fully qualified `std::option::Option`
path type is classified Scalar, not Optional — `is_option` compares only
the FIRST path segment (`std`), contradicting the claim's "including when
written as a fully qualified path". -/
theorem qualified_option_scalar :
    fieldShape (RsType.path ["std", "option", "Option"]) = some Shape.scalar ∧
      is_option (RsType.path ["std", "option", "Option"]) = some false := by
  exact ⟨by decide, by decide⟩

/-- Claim C8 (amended): shape classification is purely syntactic on the
FIRST segment of the declared type path — Optional exactly when that
segment is `Option`, Sequence exactly when it is `Vec`, Scalar for every
other first segment and for all non-path types; only a path type with an
empty segment list (not constructible from parsed surface syntax) panics
(`none`). -/
theorem field_shape_first_segment (ty : RsType) :
    fieldShape ty =
      match ty with
      | .path [] => none
      | .path (s :: _) =>
        some (if s = "Option" then Shape.optional
          else if s = "Vec" then Shape.sequence else Shape.scalar)
      | .other => some Shape.scalar := by
  cases ty with
  | other => rfl
  | path segs =>
    cases segs with
    | nil => rfl
    | cons s rest =>
      by_cases h1 : s = "Option"
      · subst h1
        simp [fieldShape, is_option]
      · have hb1 : (s == "Option") = false := by simp [h1]
        by_cases h2 : s = "Vec"
        · subst h2
          simp [fieldShape, is_option, is_vector]
        · have hb2 : (s == "Vec") = false := by simp [h2]
          simp [fieldShape, is_option, is_vector, hb1, hb2, h1, h2]

/-! ### Claim C10 -/

/-- Claim C10: generation is total only over all-named field lists — on a
struct with a tuple-struct (unnamed) field the generator panics while
unwrapping the missing identifier (`none` models the panic; the deluxe
`SchemaError` path belongs to attribute extraction, which precedes this
and is not reached), while the same shape with a named field generates
successfully. -/
theorem unnamed_field_panics :
    encryptable_derive_macro2 false [fUnnamed] = none ∧
      (encryptable_derive_macro2 false [fNamePlain]).isSome = true := by
  exact ⟨by decide, by decide⟩

/-! ### Claim C7 -/

/-- Claim C7, counterexample: the emitted plans depend on the iteration
order of the unordered field→attributes map — the two orders of the same
two-field association produce different (differently ordered) plans, so
the generator is not a function of the (schema, field set) input alone. -/
theorem derive_order_nondeterminism :
    [fA, fB].Perm [fB, fA] ∧
      encryptable_derive_macro2 false [fA, fB] ≠
        encryptable_derive_macro2 false [fB, fA] := by
  exact ⟨List.Perm.swap fB fA [], by decide⟩

/-- Claim C7 (amended): generation is deterministic only up to the order
of the per-field expressions — for two iteration orders of the same
field→attributes association, generation panics on one iff it panics on
the other, and when both succeed the two encode plans (and the two decode
plans) are permutations of each other, each field receiving the same
expression. -/
theorem derive_perm (h : Bool) (fs1 fs2 : List FieldInfo) (hp : fs1.Perm fs2) :
    (encryptable_derive_macro2 h fs1 = none ↔
       encryptable_derive_macro2 h fs2 = none) ∧
      ∀ e1 d1 e2 d2,
        encryptable_derive_macro2 h fs1 = some (e1, d1) →
        encryptable_derive_macro2 h fs2 = some (e2, d2) →
        e1.Perm e2 ∧ d1.Perm d2 := by
  constructor
  · rw [derive_eq_none_iff, derive_eq_none_iff, optionMap_eq_none_iff,
      optionMap_eq_none_iff, optionMap_eq_none_iff, optionMap_eq_none_iff]
    constructor
    · rintro (⟨a, ha, hfa⟩ | ⟨a, ha, hfa⟩)
      · exact Or.inl ⟨a, hp.subset ha, hfa⟩
      · exact Or.inr ⟨a, hp.subset ha, hfa⟩
    · rintro (⟨a, ha, hfa⟩ | ⟨a, ha, hfa⟩)
      · exact Or.inl ⟨a, hp.symm.subset ha, hfa⟩
      · exact Or.inr ⟨a, hp.symm.subset ha, hfa⟩
  · intro e1 d1 e2 d2 h1 h2
    rcases derive_components h1 with ⟨he1, hd1⟩
    rcases derive_components h2 with ⟨he2, hd2⟩
    constructor
    · rw [optionMap_eq_map (FieldExpr.copy "") he1,
        optionMap_eq_map (FieldExpr.copy "") he2]
      exact hp.map _
    · rw [optionMap_eq_map (FieldExpr.copy "") hd1,
        optionMap_eq_map (FieldExpr.copy "") hd2]
      exact hp.map _

/-- Witness for `derive_perm`: at the concrete two-field association the
two iteration orders yield encode plans that are permutations. -/
theorem derive_perm_witness :
    ([FieldExpr.copy "a", FieldExpr.copy "b"].Perm
      [FieldExpr.copy "b", FieldExpr.copy "a"]) :=
  ((derive_perm false [fA, fB] [fB, fA] (List.Perm.swap fB fA [])).2
    [FieldExpr.copy "a", FieldExpr.copy "b"]
    [FieldExpr.copy "a", FieldExpr.copy "b"]
    [FieldExpr.copy "b", FieldExpr.copy "a"]
    [FieldExpr.copy "b", FieldExpr.copy "a"]
    (by decide) (by decide)).1

/-! ### Claim C1 -/

/-- Claim C1, counterexample: the emptiness gate is NOT per service
argument for sequences.  `svcId` and `svcEmptyDiff` agree on every
non-empty string (witnessed below on every non-empty element of the
field), yet encoding the non-empty vector `["", "a"]` yields different
results — `"X"` can only arise from invoking the service's encrypt on the
EMPTY element, refuting "for every service invocation ... its string
argument is non-empty (including arguments drawn from individual elements
of a non-empty Sequence)". -/
theorem seq_empty_element_service_call :
    encode_field_expr true fSessions = some (FieldExpr.serviceSeq Op.enc "sessions") ∧
      (List.filter (fun s => !strIsEmpty s) ["", "a"]).all
        (fun s => svcId.apply Op.enc s == svcEmptyDiff.apply Op.enc s) = true ∧
      svcId.apply Op.enc "" = some "" ∧
      svcEmptyDiff.apply Op.enc "" = some "X" ∧
      evalExpr svcId dgD selfSeq (FieldExpr.serviceSeq Op.enc "sessions") =
        some (FieldValue.seq ["", "a"]) ∧
      evalExpr svcEmptyDiff dgD selfSeq (FieldExpr.serviceSeq Op.enc "sessions") =
        some (FieldValue.seq ["X", "a"]) := by
  exact ⟨by decide, by decide, by decide, by decide, by decide, by decide⟩

/-- Claim C1 (amended): the emptiness gate is per FIELD value — an empty
scalar, an absent Optional, a present-but-empty Optional inner value and
an empty Sequence are copied through unchanged with no service dependence,
and for scalar and Optional fields the result depends only on the
service's behaviour on non-empty strings; elements of a non-empty
Sequence, however, are passed to the service regardless of their own
emptiness. -/
theorem empty_value_gate (svc svc' : Service) (dg : String → String)
    (self : String → FieldValue) (op : Op) (i : String) :
    (∀ s, self i = FieldValue.scalar s → strIsEmpty s = true →
       evalExpr svc dg self (FieldExpr.serviceScalar op i) =
         some (FieldValue.scalar s)) ∧
    (self i = FieldValue.opt none →
       evalExpr svc dg self (FieldExpr.serviceOpt op i) =
         some (FieldValue.opt none)) ∧
    (∀ v, self i = FieldValue.opt (some v) → strIsEmpty v = true →
       evalExpr svc dg self (FieldExpr.serviceOpt op i) =
         some (FieldValue.opt (some v))) ∧
    (self i = FieldValue.seq [] →
       evalExpr svc dg self (FieldExpr.serviceSeq op i) =
         some (FieldValue.seq [])) ∧
    (agreeOnNonEmpty svc svc' →
       evalExpr svc dg self (FieldExpr.serviceScalar op i) =
           evalExpr svc' dg self (FieldExpr.serviceScalar op i) ∧
         evalExpr svc dg self (FieldExpr.serviceOpt op i) =
           evalExpr svc' dg self (FieldExpr.serviceOpt op i)) := by
  refine ⟨?_, ?_, ?_, ?_, ?_⟩
  · intro s hs hemp
    simp [evalExpr, hs, FieldValue.asScalar, applyScalar, hemp]
  · intro hs
    simp [evalExpr, hs, FieldValue.asOpt, applyOpt]
  · intro v hs hemp
    simp [evalExpr, hs, FieldValue.asOpt, applyOpt, hemp]
  · intro hs
    simp [evalExpr, hs, FieldValue.asSeq, applySeq]
  · intro hagree
    have hsc : ∀ s, applyScalar (svc.apply op) s = applyScalar (svc'.apply op) s := by
      intro s
      rcases hemp : strIsEmpty s with _ | _
      · simp [applyScalar, hemp, hagree op s hemp]
      · simp [applyScalar, hemp]
    have hop : ∀ o, applyOpt (svc.apply op) o = applyOpt (svc'.apply op) o := by
      intro o
      rcases o with _ | v
      · rfl
      · rcases hemp : strIsEmpty v with _ | _
        · simp [applyOpt, hemp, hagree op v hemp]
        · simp [applyOpt, hemp]
    constructor
    · rcases hv : self i with s | o | l <;>
        simp [evalExpr, hv, FieldValue.asScalar, hsc]
    · rcases hv : self i with s | o | l <;>
        simp [evalExpr, hv, FieldValue.asOpt, hop]

/-- Witness for `empty_value_gate`: the empty scalar is copied through. -/
theorem empty_value_gate_witness :
    evalExpr svcId dgD selfEmpty (FieldExpr.serviceScalar Op.enc "name") =
      some (FieldValue.scalar "") :=
  (empty_value_gate svcId svcEmptyDiff dgD selfEmpty Op.enc "name").1 "" rfl rfl

/-! ### Claim C2 -/

/-- Claim C2, counterexample: a field named plain `digest` — whose name is
not of the form `<base>_digest` and which has no sibling base field at all
— still receives digest behaviour on encode (applied to itself, since
`"digest".replace("_digest", "") == "digest"`): the generator tests only
`ends_with("digest")` and never looks for a sibling. -/
theorem digest_without_sibling :
    strEndsWith "digest" "_digest" = false ∧
      encryptable_derive_macro2 true [fDigestBare] =
        some ([FieldExpr.digestExpr "digest" "digest"], [FieldExpr.copy "digest"]) ∧
      (cryptEncrypt svcId dgD true [fDigestBare] selfX).map (fun r => r "digest") =
        some (FieldValue.scalar "D") ∧
      selfX "digest" = FieldValue.scalar "x" ∧
      FieldValue.scalar "D" ≠ FieldValue.scalar "x" := by
  exact ⟨by decide, by decide, by decide, rfl, by decide⟩

/-- Claim C2 (amended): for a field without the encrypt flag, the encode
expression is the digest expression if and only if the field's name merely
ENDS WITH `"digest"` and the record-level digest is configured — no
sibling `<base>` field is required to exist and the suffix `"_digest"` is
not required either; the digest parent is the name with every `"_digest"`
occurrence removed; in every other case the encode expression is a plain
copy-through. -/
theorem digest_rule_resolution {h : Bool} {fs : List FieldInfo}
    {encs decs : List FieldExpr} {k : Nat} {fi : FieldInfo} {n : String}
    (hd : encryptable_derive_macro2 h fs = some (encs, decs))
    (hget : fs.get? k = some fi)
    (hid : fi.field.ident = some n)
    (henc : fi.attrs.encrypt = false) :
    encs.get? k =
      some (if strEndsWith n "digest" && h then
          FieldExpr.digestExpr n (replaceRemove n "_digest")
        else FieldExpr.copy n) := by
  rcases derive_components hd with ⟨he1, _⟩
  rcases optionMap_get? he1 k fi hget with ⟨e, hfe, hke⟩
  rw [hke]
  unfold encode_field_expr at hfe
  rw [hid, henc] at hfe
  simp only [Bool.false_eq_true, if_false] at hfe
  rcases hcond : strEndsWith n "digest" && h with _ | _ <;> rw [hcond] at hfe <;>
    simp only [Bool.false_eq_true, if_false, if_true] at hfe
  · cases hfe
    simp [hcond]
  · rcases hmk : mkIdent (replaceRemove n "_digest") with _ | p <;> rw [hmk] at hfe
    · cases hfe
    · cases hfe
      have hp : p = replaceRemove n "_digest" := by
        unfold mkIdent at hmk
        rcases hemp : strIsEmpty (replaceRemove n "_digest") with _ | _ <;>
          rw [hemp] at hmk
        · exact (Option.some_inj.mp hmk).symm
        · cases hmk
      rw [hp]
      simp

/-- Witness for `digest_rule_resolution`: the single-field record
`a_digest` (with no sibling `a`) gets the digest expression. -/
theorem digest_rule_resolution_witness :
    [FieldExpr.digestExpr "a_digest" "a"].get? 0 =
      some (if strEndsWith "a_digest" "digest" && true then
          FieldExpr.digestExpr "a_digest" (replaceRemove "a_digest" "_digest")
        else FieldExpr.copy "a_digest") :=
  @digest_rule_resolution true [fADigest] [FieldExpr.digestExpr "a_digest" "a"]
    [FieldExpr.copy "a_digest"] 0 fADigest "a_digest"
    (by decide) (by decide) rfl rfl

/-! ### Claim C4 -/

/-- Claim C4, counterexample: a digest-form field (`name_digest`, sibling
`name` present, digest configured) that carries an explicit `decrypt` flag
is NOT copied through by decode — the service's decrypt is applied to it,
refuting "always copy-through regardless of any per-field flags". -/
theorem digest_decode_decrypt_flag :
    fNameDigestDec.attrs.decrypt = true ∧
      (cryptDecrypt svcConstDec dgD true [fNamePlain, fNameDigestDec] selfY).map
          (fun r => r "name_digest") = some (FieldValue.scalar "X") ∧
      selfY "name_digest" = FieldValue.scalar "y" ∧
      FieldValue.scalar "X" ≠ FieldValue.scalar "y" := by
  exact ⟨rfl, by decide, rfl, by decide⟩

/-- Claim C4 (amended): the decode expression of a digest-form field is
copy-through PROVIDED the field does not itself carry the `decrypt` flag
(the decode arm never consults field names at all: any field without the
flag is copied, any field with it gets the service); evaluating the copy
expression returns the input value unchanged for every record. -/
theorem digest_decode_copy (fi : FieldInfo) (n : String) (svc : Service)
    (dg : String → String) (self : String → FieldValue)
    (hid : fi.field.ident = some n) (hdec : fi.attrs.decrypt = false) :
    decode_field_expr fi = some (FieldExpr.copy n) ∧
      evalExpr svc dg self (FieldExpr.copy n) = some (self n) :=
  ⟨decode_field_expr_copy hid hdec, rfl⟩

/-- Witness for `digest_decode_copy` at the tests' `name_digest` field. -/
theorem digest_decode_copy_witness :
    decode_field_expr fNameDigest = some (FieldExpr.copy "name_digest") ∧
      evalExpr svcId dgD selfX (FieldExpr.copy "name_digest") =
        some (selfX "name_digest") :=
  digest_decode_copy fNameDigest "name_digest" svcId dgD selfX rfl rfl

/-! ### Claim C5 -/

/-- Claim C5, counterexample: the tests' own digest companion field —
`name_digest`, carrying NEITHER flag — is rewritten by encode (to the
digest of the sibling `name`), refuting "a field with neither flag set is
identical between input and output of the encode operation". -/
theorem digest_overrides_copy_through :
    fNameDigest.attrs.encrypt = false ∧ fNameDigest.attrs.decrypt = false ∧
      (cryptEncrypt svcId dgD true [fNamePlain, fNameDigest] selfJake).map
          (fun r => r "name_digest") = some (FieldValue.scalar "D") ∧
      selfJake "name_digest" = FieldValue.scalar "x" ∧
      FieldValue.scalar "D" ≠ FieldValue.scalar "x" := by
  exact ⟨rfl, rfl, by decide, by decide, by decide⟩

/-- Claim C5 (amended): a field with neither flag set AND not subject to
the digest rule (its name does not end with `"digest"`, or no digest is
configured) is copied through unchanged by both generated operations. -/
theorem copy_through_default (svc : Service) (dg : String → String) (h : Bool)
    (fs : List FieldInfo) (fi : FieldInfo) (n : String)
    (self mid out : String → FieldValue)
    (hmem : fi ∈ fs) (hid : fi.field.ident = some n)
    (henc : fi.attrs.encrypt = false) (hdec : fi.attrs.decrypt = false)
    (hng : (strEndsWith n "digest" && h) = false)
    (hnd : (fs.map fun x => x.field.ident).Nodup)
    (hmid : cryptEncrypt svc dg h fs self = some mid)
    (hout : cryptDecrypt svc dg h fs self = some out) :
    mid n = self n ∧ out n = self n := by
  constructor
  · have h1 := cryptEncrypt_field hmid hnd hmem (encode_field_expr_copy hid henc hng)
    have h1' : some (self n) = some (mid n) := h1
    exact (Option.some_inj.mp h1').symm
  · have h2 := cryptDecrypt_field hout hnd hmem (decode_field_expr_copy hid hdec)
    have h2' : some (self n) = some (out n) := h2
    exact (Option.some_inj.mp h2').symm

/-- Witness for `copy_through_default` on a one-field record. -/
theorem copy_through_default_witness :
    midNote "note" = selfA "note" ∧ midNote "note" = selfA "note" :=
  copy_through_default svcId dgD true [fNote] fNote "note" selfA midNote midNote
    (by decide) rfl rfl rfl (by decide) (by decide) rfl rfl

/-! ### Claim C6 -/

/-- Claim C6: shape preservation of the service expressions (the bodies
`encrypt_field`/`decrypt_field` emit for Optional and Sequence fields, for
either capability `op`): absence is preserved, a present Optional value
stays present with the scalar rule applied to the inner value, and a
Sequence keeps its length with elements transformed independently at their
own index (an empty Sequence is returned untouched). -/
theorem shape_preservation (svc : Service) (dg : String → String)
    (self : String → FieldValue) (op : Op) (i : String) :
    (self i = FieldValue.opt none →
       evalExpr svc dg self (FieldExpr.serviceOpt op i) =
         some (FieldValue.opt none)) ∧
    (∀ v r, self i = FieldValue.opt (some v) →
       evalExpr svc dg self (FieldExpr.serviceOpt op i) = some r →
       ∃ w, r = FieldValue.opt (some w) ∧ applyScalar (svc.apply op) v = some w) ∧
    (∀ l r, self i = FieldValue.seq l →
       evalExpr svc dg self (FieldExpr.serviceSeq op i) = some r →
       ∃ m, r = FieldValue.seq m ∧ m.length = l.length ∧ (l = [] → m = l) ∧
         ∀ k v, l.get? k = some v →
           ∃ w, svc.apply op v = some w ∧ m.get? k = some w) := by
  refine ⟨?_, ?_, ?_⟩
  · intro hs
    simp [evalExpr, hs, FieldValue.asOpt, applyOpt]
  · intro v r hv hr
    simp only [evalExpr] at hr
    rw [hv] at hr
    simp only [FieldValue.asOpt] at hr
    rcases hemp : strIsEmpty v with _ | _
    · rcases hfv : svc.apply op v with _ | w
      · rw [show applyOpt (svc.apply op) (some v) = none from by
          simp [applyOpt, hemp, hfv]] at hr
        cases hr
      · rw [show applyOpt (svc.apply op) (some v) = some (some w) from by
          simp [applyOpt, hemp, hfv]] at hr
        cases hr
        exact ⟨w, rfl, by simp [applyScalar, hemp, hfv]⟩
    · rw [show applyOpt (svc.apply op) (some v) = some (some v) from by
        simp [applyOpt, hemp]] at hr
      cases hr
      exact ⟨v, rfl, by simp [applyScalar, hemp]⟩
  · intro l r hl hr
    simp only [evalExpr] at hr
    rw [hl] at hr
    simp only [FieldValue.asSeq] at hr
    rcases l with _ | ⟨c, cs⟩
    · rw [show applySeq (svc.apply op) [] = some [] from rfl] at hr
      cases hr
      exact ⟨[], rfl, rfl, fun _ => rfl, fun k v hkv => by cases k <;> cases hkv⟩
    · rw [show applySeq (svc.apply op) (c :: cs) = optionMap (svc.apply op) (c :: cs)
        from by simp [applySeq]] at hr
      rcases hm : optionMap (svc.apply op) (c :: cs) with _ | m <;> rw [hm] at hr
      · cases hr
      · cases hr
        refine ⟨m, rfl, optionMap_length hm, ?_, ?_⟩
        · intro hnil
          exact absurd hnil (List.cons_ne_nil c cs)
        · intro k v hkv
          exact optionMap_get? hm k v hkv

/-- Witness for `shape_preservation`: an absent Optional stays absent. -/
theorem shape_preservation_witness :
    evalExpr svcId dgD selfOptNone (FieldExpr.serviceOpt Op.enc "name") =
      some (FieldValue.opt none) :=
  (shape_preservation svcId dgD selfOptNone Op.enc "name").1 rfl

/-! ### Claim C9 -/

/-- Claim C9: a generated operation body returns no recoverable error — it
evaluates to `none` (the model of the `.unwrap()` panic, aborting at the
first failing expression) exactly when some field expression fails, in
particular when the service errs on a non-empty scalar; and when every
expression succeeds it returns the fully transformed record built from the
computed field values. -/
theorem panic_on_service_error (svc : Service) (dg : String → String)
    (self : String → FieldValue) (plan : List FieldExpr) :
    (runOp svc dg self plan = none ↔
       ∃ e ∈ plan, evalExpr svc dg self e = none) ∧
    (∀ l, runPlan svc dg self plan = some l →
       runOp svc dg self plan = some (updFields self l)) ∧
    (∀ op i s, self i = FieldValue.scalar s → strIsEmpty s = false →
       svc.apply op s = none →
       evalExpr svc dg self (FieldExpr.serviceScalar op i) = none) := by
  refine ⟨?_, ?_, ?_⟩
  · unfold runOp
    rcases hp : runPlan svc dg self plan with _ | l
    · constructor
      · intro _
        rcases optionMap_eq_none_iff.mp hp with ⟨e, he, hge⟩
        exact ⟨e, he, Option.map_eq_none'.mp hge⟩
      · intro _
        rfl
    · constructor
      · intro hco
        cases hco
      · rintro ⟨e, he, hge⟩
        have hnone : runPlan svc dg self plan = none :=
          optionMap_none_of_mem he (by rw [hge]; rfl)
        rw [hnone] at hp
        cases hp
  · intro l hl
    unfold runOp
    rw [hl]
  · intro op i s hs hemp hf
    simp [evalExpr, hs, FieldValue.asScalar, applyScalar, hemp, hf]

/-- Witness for `panic_on_service_error`: a failing service panics the
whole operation. -/
theorem panic_on_service_error_witness :
    runOp svcFail dgD selfA [FieldExpr.serviceScalar Op.enc "name"] = none :=
  (panic_on_service_error svcFail dgD selfA
      [FieldExpr.serviceScalar Op.enc "name"]).1.mpr
    ⟨FieldExpr.serviceScalar Op.enc "name", by decide, by decide⟩

/-! ### Claim C3 -/

/-- Claim C3, counterexample: under the claim's hypothesis alone (decode
is a left inverse of encode on non-empty strings) the round-trip FAILS:
`svcCollapse` satisfies the hypothesis but encrypts the non-empty `"a"`
to the EMPTY ciphertext, which decode's emptiness short-circuit then
copies through instead of decrypting, so decode∘encode returns `""`,
not `"a"`. -/
theorem roundtrip_fails_on_empty_ciphertext :
    leftInverseOnNonEmpty svcCollapse ∧
      (cryptEncrypt svcCollapse dgD false [fName] selfA).map (fun r => r "name") =
        some (FieldValue.scalar "") ∧
      ((cryptEncrypt svcCollapse dgD false [fName] selfA).bind
          (cryptDecrypt svcCollapse dgD false [fName])).map (fun r => r "name") =
        some (FieldValue.scalar "") ∧
      selfA "name" = FieldValue.scalar "a" ∧
      FieldValue.scalar "" ≠ FieldValue.scalar "a" := by
  refine ⟨?_, by decide, by decide, rfl, by decide⟩
  intro v hv
  have hv' : v ≠ "" := fun hveq => by
    rw [hveq] at hv
    exact absurd hv (by decide)
  by_cases hva : v = "a"
  · subst hva
    decide
  · simp [svcCollapse, hva, hv']

/-- Claim C3 (amended): the round-trip holds under the strengthened
hypothesis that on non-empty plaintext the service encrypts to a NON-EMPTY
ciphertext that decrypts back: for a scalar field flagged both `encrypt`
and `decrypt` holding a non-empty value, decoding the encoded record
restores the original value. -/
theorem roundtrip_scalar (svc : Service) (dg : String → String) (h : Bool)
    (fs : List FieldInfo) (fi : FieldInfo) (n s : String)
    (self mid out : String → FieldValue)
    (hinv : encodeInvertibleOnNonEmpty svc)
    (hmem : fi ∈ fs) (hid : fi.field.ident = some n)
    (henc : fi.attrs.encrypt = true) (hdec : fi.attrs.decrypt = true)
    (hsh : fieldShape fi.field.ty = some Shape.scalar)
    (hnd : (fs.map fun x => x.field.ident).Nodup)
    (hval : self n = FieldValue.scalar s) (hne : strIsEmpty s = false)
    (hmid : cryptEncrypt svc dg h fs self = some mid)
    (hout : cryptDecrypt svc dg h fs mid = some out) :
    out n = FieldValue.scalar s := by
  rcases hinv s hne with ⟨w, hw, hwne, hwd⟩
  have h1 := cryptEncrypt_field hmid hnd hmem (encode_field_expr_flagged hid henc hsh)
  have heval1 : evalExpr svc dg self (FieldExpr.serviceScalar Op.enc n) =
      some (FieldValue.scalar w) := by
    simp [evalExpr, hval, FieldValue.asScalar, applyScalar, hne, Service.apply, hw]
  rw [heval1] at h1
  have hmidn : mid n = FieldValue.scalar w := (Option.some_inj.mp h1).symm
  have h2 := cryptDecrypt_field hout hnd hmem (decode_field_expr_flagged hid hdec hsh)
  have heval2 : evalExpr svc dg mid (FieldExpr.serviceScalar Op.dec n) =
      some (FieldValue.scalar s) := by
    simp [evalExpr, hmidn, FieldValue.asScalar, applyScalar, hwne, Service.apply, hwd]
  rw [heval2] at h2
  exact (Option.some_inj.mp h2).symm

/-- Witness for `roundtrip_scalar` with the identity service on the
one-field record `name = "a"`. -/
theorem roundtrip_scalar_witness : outA "name" = FieldValue.scalar "a" :=
  roundtrip_scalar svcId dgD false [fName] fName "name" "a" selfA midA outA
    (fun v hv => ⟨v, rfl, hv, rfl⟩) (by decide) rfl rfl rfl (by decide) (by decide)
    rfl (by decide) rfl rfl

end Encryptable
